import Mathlib

/-!
# DPU-Benchmarks: device engine (`bench_dpu.c`) and host driver (`bench_host.c`)

Shallow embedding of the two C sources.  Machine integers are naturals with an
explicit reduction modulo `2 ^ 32` (`uint32_t`, `unsigned`) or `2 ^ 64`
(`uint64_t`, `size_t`) at every operation that can wrap.  Cycle-counter
readings are parameters of the device functions.  The contents of the scratch
buffers and of the region are not part of the model; the region accesses
(offset and size) are recorded in a trace.
-/

/-- Reduction to the range of `uint32_t`. -/
def u32 (n : Nat) : Nat := n % 2 ^ 32

/-- Reduction to the range of `uint64_t` / `size_t`. -/
def u64 (n : Nat) : Nat := n % 2 ^ 64

/-- Subtraction of two `uint64_t` values, `a - b` with wrap-around. -/
def sub_u64 (a b : Nat) : Nat := (u64 a + 2 ^ 64 - u64 b) % 2 ^ 64

namespace Dpu

/-- Embedding of `#define NR_TASKLETS 16` -/
def NR_TASKLETS : Nat := 16

/-- Embedding of `#define MRAM_BUF_SIZE (8 * 1024 * 1024)` -/
def MRAM_BUF_SIZE : Nat := 8 * 1024 * 1024

/-- Embedding of `#define CHUNK_MAX 2048` -/
def CHUNK_MAX : Nat := 2048

/-- Embedding of `struct bench_cfg` -/
structure bench_cfg where
  test_id : Nat
  bytes : Nat
  stride : Nat
  reps : Nat
  flags : Nat
deriving DecidableEq, Repr

/-- Embedding of `struct bench_out` -/
structure bench_out where
  cycles_total : Nat
  ops_done : Nat
  pad : Nat
deriving DecidableEq, Repr

/-- One access to `MRAM_BUF`: `mram_read(&MRAM_BUF[idx], wbuf, sz)` or
`mram_write(wbuf, &MRAM_BUF[idx], sz)`. -/
inductive mram_op where
  | mram_read (idx sz : Nat)
  | mram_write (idx sz : Nat)
deriving DecidableEq, Repr

/-- Offset of an access in `MRAM_BUF`. -/
def mram_op.idx : mram_op → Nat
  | .mram_read i _ => i
  | .mram_write i _ => i

/-- Size in bytes of an access. -/
def mram_op.sz : mram_op → Nat
  | .mram_read _ s => s
  | .mram_write _ s => s

/-- Embedding of `static inline uint32_t align8_down_u32(uint32_t x) { return x & ~7u; }` -/
def align8_down_u32 (x : Nat) : Nat := x &&& (7 ^^^ 0xFFFFFFFF)

/-- Embedding of `req = (c->bytes <= CHUNK_MAX ? c->bytes : CHUNK_MAX)` -/
def mram_req (bytes : Nat) : Nat := if bytes ≤ CHUNK_MAX then bytes else CHUNK_MAX

/-- Embedding of `sz = align8_down_u32(req)` -/
def mram_sz (bytes : Nat) : Nat := align8_down_u32 (mram_req bytes)

/-- Embedding of `base = align8_down_u32(tid * (stride ? stride : sz))`, where `stride` is
already the aligned stride. -/
def mram_base (tid stride sz : Nat) : Nat :=
  align8_down_u32 (u32 (tid * (if stride ≠ 0 then stride else sz)))

/-- Embedding of `idx = base + (stride ? r * stride : r * sz)` -/
def mram_idx (base stride sz r : Nat) : Nat :=
  u32 (base + (if stride ≠ 0 then u32 (r * stride) else u32 (r * sz)))

/-- The guard `idx + sz > MRAM_BUF_SIZE` of the repetition loop; the sum is a
`uint32_t`. -/
def mram_clamp (idx sz : Nat) : Bool := decide (u32 (idx + sz) > MRAM_BUF_SIZE)

/-- The repetition loop `for (r = 0; r < reps; r++) { idx = ...; if (idx + sz >
MRAM_BUF_SIZE) break; access(idx, sz); }` of `bench_mram_read` and
`bench_mram_write`: the offsets accessed, in order.  `r` runs over
`0 .. reps - 1` (below `2 ^ 32`, so `r++` does not wrap) and the loop stops at
the first `r` whose guard holds. -/
def mram_loop (base stride sz reps : Nat) : List Nat :=
  ((List.range reps).map (mram_idx base stride sz)).takeWhile
    (fun idx => !(mram_clamp idx sz))

/-- Embedding of `bench_mram_read`: the stored result and the trace of region reads. -/
def bench_mram_read (tid : Nat) (c : bench_cfg) (start stop : Nat) (o : bench_out) :
    bench_out × List mram_op :=
  let sz := mram_sz c.bytes
  let stride := align8_down_u32 c.stride
  let reps := c.reps
  if sz = 0 then ({ o with cycles_total := 0, ops_done := 0 }, [])
  else
    let base := mram_base tid stride sz
    let trace := (mram_loop base stride sz reps).map (fun idx => mram_op.mram_read idx sz)
    ({ o with cycles_total := sub_u64 stop start, ops_done := reps }, trace)

/-- Embedding of `bench_mram_write`: the stored result and the trace of region writes. -/
def bench_mram_write (tid : Nat) (c : bench_cfg) (start stop : Nat) (o : bench_out) :
    bench_out × List mram_op :=
  let sz := mram_sz c.bytes
  let stride := align8_down_u32 c.stride
  let reps := c.reps
  if sz = 0 then ({ o with cycles_total := 0, ops_done := 0 }, [])
  else
    let base := mram_base tid stride sz
    let trace := (mram_loop base stride sz reps).map (fun idx => mram_op.mram_write idx sz)
    ({ o with cycles_total := sub_u64 stop start, ops_done := reps }, trace)

/-- Embedding of `bench_wram_memcpy`: copies between the two scratch buffers only. -/
def bench_wram_memcpy (_tid : Nat) (c : bench_cfg) (start stop : Nat) (o : bench_out) :
    bench_out × List mram_op :=
  let reps := c.reps
  ({ o with cycles_total := sub_u64 stop start, ops_done := reps }, [])

/-- Embedding of `bench_barrier`: `reps` barrier waits. -/
def bench_barrier (_tid : Nat) (c : bench_cfg) (start stop : Nat) (o : bench_out) :
    bench_out × List mram_op :=
  let reps := c.reps
  ({ o with cycles_total := sub_u64 stop start, ops_done := reps }, [])

/-- Embedding of `bench_reduce`: local accumulation, a barrier, reduction on tasklet 0. -/
def bench_reduce (_tid : Nat) (c : bench_cfg) (start stop : Nat) (o : bench_out) :
    bench_out × List mram_op :=
  let reps := c.reps
  ({ o with cycles_total := sub_u64 stop start, ops_done := reps }, [])

/-- Embedding of `main` of the device program for tasklet `tid`: the new value of `OUT[tid]`
and the trace of region accesses. -/
def main (tid : Nat) (cfg : bench_cfg) (start stop : Nat) (o : bench_out) :
    bench_out × List mram_op :=
  if cfg.test_id = 1 then bench_mram_read tid cfg start stop o
  else if cfg.test_id = 2 then bench_mram_write tid cfg start stop o
  else if cfg.test_id = 3 then bench_wram_memcpy tid cfg start stop o
  else if cfg.test_id = 4 then bench_barrier tid cfg start stop o
  else if cfg.test_id = 5 then bench_reduce tid cfg start stop o
  else ({ o with cycles_total := 0, ops_done := 0 }, [])

end Dpu

/-! ## Conversion to `double`

`run_on_dpu` accumulates the per-unit results in two `double` variables.  All
values involved are non-negative integers, on which IEEE-754 binary64
arithmetic is described exactly by rounding to a 53-bit significand. -/

/-- Number of low-order bits that do not fit a 53-bit significand: the least
`e` with `n / 2 ^ e < 2 ^ 53` (the first argument bounds the search). -/
def excess_bits : Nat → Nat → Nat
  | 0, _ => 0
  | fuel + 1, n => if n < 2 ^ 53 then 0 else 1 + excess_bits fuel (n / 2)

/-- Value of the C conversion `(double)n` of an unsigned integer: round to
nearest, ties to even, with a 53-bit significand. -/
def to_double (n : Nat) : Nat :=
  let e := excess_bits n n
  let q := n / 2 ^ e
  let r := n % 2 ^ e
  if 2 * r < 2 ^ e ∨ (2 * r = 2 ^ e ∧ q % 2 = 0) then q * 2 ^ e else (q + 1) * 2 ^ e

/-- Sum `a + b` of two `double`s holding non-negative integers: the exact sum,
correctly rounded. -/
def double_add (a b : Nat) : Nat := to_double (a + b)

namespace Host

/-- Embedding of `#define NR_TASKLETS 16` -/
def NR_TASKLETS : Nat := 16

/-- Embedding of `#define MRAM_BUF_SIZE (8 * 1024 * 1024)` -/
def MRAM_BUF_SIZE : Nat := 8 * 1024 * 1024

/-- Embedding of `static inline size_t align8_up(size_t x) { return (x + 7) & ~(size_t)7; }` -/
def align8_up (x : Nat) : Nat := u64 (x + 7) &&& (7 ^^^ 0xFFFFFFFFFFFFFFFF)

/-- Embedding of `static inline size_t align8_down(size_t x) { return x & ~(size_t)7; }` -/
def align8_down (x : Nat) : Nat := x &&& (7 ^^^ 0xFFFFFFFFFFFFFFFF)

/-- Embedding of `static inline size_t clamp_to_buf(size_t x)` -/
def clamp_to_buf (x : Nat) : Nat := if x > MRAM_BUF_SIZE then MRAM_BUF_SIZE else x

/-- First column of a CSV data row: the literal of the format string, and for
`dpu_test_%u` the test identifier. -/
inductive row_name where
  | host_h2d
  | host_d2h
  | host_h2d_prepare_push
  | host_d2h_prepare_push
  | dpu_test (test_id : Nat)
deriving DecidableEq, Repr

/-- One data row of `bench_results.csv`.  The wall-clock column `host_ms` and
the throughput column of the host-path rows are timing measurements and are
not part of the model; `sums` holds `(sum_cycles, sum_ops)` of a device-path
row. -/
structure csv_row where
  name : row_name
  bytes : Nat
  stride : Nat
  reps : Nat
  sums : Option (Nat × Nat)
deriving DecidableEq, Repr

/-- Embedding of `run_host_to_dpu`: the row it prints. -/
def run_host_to_dpu (bytes reps : Nat) : csv_row :=
  let xfer := align8_down (clamp_to_buf bytes)
  let xfer := if xfer < 8 then 8 else xfer
  { name := .host_h2d, bytes := xfer, stride := 0, reps := reps, sums := none }

/-- Embedding of `run_dpu_to_host`: the row it prints. -/
def run_dpu_to_host (bytes reps : Nat) : csv_row :=
  let xfer := align8_down (clamp_to_buf bytes)
  let xfer := if xfer < 8 then 8 else xfer
  { name := .host_d2h, bytes := xfer, stride := 0, reps := reps, sums := none }

/-- Embedding of `run_prepare_push_h2d`: the row it prints. -/
def run_prepare_push_h2d (bytes reps : Nat) : csv_row :=
  let xfer := align8_down (clamp_to_buf bytes)
  let xfer := if xfer < 8 then 8 else xfer
  { name := .host_h2d_prepare_push, bytes := xfer, stride := 0, reps := reps, sums := none }

/-- Embedding of `run_prepare_push_d2h`: the row it prints. -/
def run_prepare_push_d2h (bytes reps : Nat) : csv_row :=
  let xfer := align8_down (clamp_to_buf bytes)
  let xfer := if xfer < 8 then 8 else xfer
  { name := .host_d2h_prepare_push, bytes := xfer, stride := 0, reps := reps, sums := none }

/-- Embedding of `const unsigned BATCH = 64;` -/
def BATCH : Nat := 64

/-- State of the preparing `DPU_FOREACH` of `run_prepare_push_d2h`: the
counters `k` and `idx`, and the calls `dpu_prepare_xfer(dpu, pool[k])` made so
far, each as (enumeration position of `dpu`, pool slot `k`). -/
structure prep_state where
  k : Nat
  idx : Nat
  calls : List (Nat × Nat)
deriving DecidableEq, Repr

/-- Body of the preparing `DPU_FOREACH` for the device at enumeration position
`each`: `if (k < pool_sz && idx >= processed && idx < processed + pool_sz)
dpu_prepare_xfer(dpu, pool[k++]); idx++;` -/
def prepare_body (processed pool_sz : Nat) (st : prep_state) (each : Nat) : prep_state :=
  let st1 : prep_state :=
    if st.k < pool_sz ∧ st.idx ≥ processed ∧ st.idx < u32 (processed + pool_sz) then
      { st with k := u32 (st.k + 1), calls := st.calls ++ [(each, st.k)] }
    else st
  { st1 with idx := u32 (st1.idx + 1) }

/-- One window of a repetition: the size of the pool allocated for it and the
`dpu_prepare_xfer` calls made before its `dpu_push_xfer`. -/
structure window where
  pool_sz : Nat
  calls : List (Nat × Nat)
deriving DecidableEq, Repr

/-- The loop `while (processed < total)` of `run_prepare_push_d2h` over a fleet
whose enumeration yields `F` devices; `none` when the fuel runs out.  `pool` is
`NULL` on entry to every iteration (it is initialised to `NULL` and reset to
`NULL` at the end of the body), so the allocation branch always runs. -/
def window_loop (F total : Nat) : Nat → Nat → Nat → Option (List window)
  | 0, _, _ => none
  | fuel + 1, processed, idx =>
    if processed < total then
      let pool_sz := if total - processed < BATCH then total - processed else BATCH
      let st := (List.range F).foldl (prepare_body processed pool_sz) ⟨0, idx, []⟩
      (window_loop F total fuel (u32 (processed + pool_sz)) 0).map
        (fun rest => ⟨pool_sz, st.calls⟩ :: rest)
    else some []

/-- Embedding of `count_dpus`: the number of devices the enumeration yields,
as `unsigned`. -/
def count_dpus (F : Nat) : Nat := u32 F

/-- One repetition of the timed loop of `run_prepare_push_d2h` (the body of
`for (r = 0; r < reps; r++)`): the windows it runs.  The repetition starts with
`idx = 0`, `processed = 0` and `total = ndpus`; its first `DPU_FOREACH` has an
empty body. -/
def run_prepare_push_d2h_rep (fuel F : Nat) : Option (List window) :=
  window_loop F (count_dpus F) fuel 0 0

/-- Contents of `OUT` of one device after a launch with descriptor `cfg`:
tasklet `tid` stores what the device `main` computes; `timer tid` is the pair
of cycle-counter readings of that tasklet. -/
def dpu_launch (timer : Nat → Nat × Nat) (cfg : Dpu.bench_cfg) (tid : Nat) : Dpu.bench_out :=
  (Dpu.main tid cfg (timer tid).1 (timer tid).2 ⟨0, 0, 0⟩).1

/-- The accumulation loop of `run_on_dpu` for one device:
`for (t = 0; t < NR_TASKLETS; t++) { sum_cycles += (double)outs[t].cycles_total;
sum_ops += (double)outs[t].ops_done; }` -/
def sum_outs (acc : Nat × Nat) (outs : Nat → Dpu.bench_out) : Nat × Nat :=
  (List.range NR_TASKLETS).foldl
    (fun a t => (double_add a.1 (to_double (outs t).cycles_total),
                 double_add a.2 (to_double (outs t).ops_done))) acc

/-- Size of the warm-up broadcast of `run_on_dpu`. -/
def run_on_dpu_warm (bytes stride reps : Nat) : Nat :=
  let need :=
    if stride ≠ 0 then
      u64 (u64 (NR_TASKLETS * stride) + u64 (stride * (if reps ≠ 0 then u32 (reps - 1) else 0)))
    else
      u64 (u64 (NR_TASKLETS * (if bytes ≠ 0 then bytes else 8)) * (if reps ≠ 0 then reps else 1))
  let xfer := clamp_to_buf (align8_up need)
  if xfer < 8 then 8 else xfer

/-- Embedding of `run_on_dpu` on a fleet of `ndpus` devices: the row it prints.  `timer d
tid` is the pair of cycle-counter readings of tasklet `tid` of device `d`
during the launch. -/
def run_on_dpu (ndpus : Nat) (timer : Nat → Nat → Nat × Nat)
    (test_id bytes stride reps : Nat) : csv_row :=
  let cfg : Dpu.bench_cfg := ⟨test_id, u32 bytes, stride, reps, 0⟩
  let sums := (List.range ndpus).foldl (fun acc d => sum_outs acc (dpu_launch (timer d) cfg))
    (0, 0)
  { name := .dpu_test test_id, bytes := bytes, stride := stride, reps := reps,
    sums := some sums }

/-- Rows written by one iteration of the sweep loop of `main` for size `b`.
`timer test_id` gives the cycle-counter readings of the launch of that test in
this iteration. -/
def step_rows (ndpus : Nat) (timer : Nat → Nat → Nat → Nat × Nat) (which reps b : Nat) :
    List csv_row :=
  (if which = 0xFFFFFFFF ∨ which &&& 0x1 ≠ 0 then [run_host_to_dpu b reps] else []) ++
  (if which = 0xFFFFFFFF ∨ which &&& 0x2 ≠ 0 then [run_dpu_to_host b reps] else []) ++
  (if which = 0xFFFFFFFF ∨ which &&& 0x80 ≠ 0 then [run_prepare_push_h2d b reps] else []) ++
  (if which = 0xFFFFFFFF ∨ which &&& 0x100 ≠ 0 then [run_prepare_push_d2h b reps] else []) ++
  (if which = 0xFFFFFFFF ∨ which &&& 0x4 ≠ 0 then
    [run_on_dpu ndpus (timer 1) 1 b 0 reps] else []) ++
  (if which = 0xFFFFFFFF ∨ which &&& 0x8 ≠ 0 then
    [run_on_dpu ndpus (timer 2) 2 b 0 reps] else []) ++
  (if which = 0xFFFFFFFF ∨ which &&& 0x10 ≠ 0 then
    [run_on_dpu ndpus (timer 3) 3 b 0 reps] else []) ++
  (if which = 0xFFFFFFFF ∨ which &&& 0x20 ≠ 0 then
    [run_on_dpu ndpus (timer 4) 4 0 0 (u32 (reps * 8))] else []) ++
  (if which = 0xFFFFFFFF ∨ which &&& 0x40 ≠ 0 then
    [run_on_dpu ndpus (timer 5) 5 0 0 (u32 (reps * 1024))] else [])

/-- The sweep loop of `main`, `for (size_t b = min_bytes; b <= max_bytes; b *=
factor)`, from loop counter `i` and size `b`: for each iteration the size and
the rows written; `none` when the fuel runs out.  `timer i test_id d tid` gives
the cycle-counter readings for the launch of `test_id` in iteration `i`. -/
def sweep_loop (ndpus : Nat) (timer : Nat → Nat → Nat → Nat → Nat × Nat)
    (which reps max_bytes factor : Nat) : Nat → Nat → Nat → Option (List (Nat × List csv_row))
  | 0, _, _ => none
  | fuel + 1, i, b =>
    if b ≤ max_bytes then
      (sweep_loop ndpus timer which reps max_bytes factor fuel (i + 1) (u64 (b * factor))).map
        (fun rest => (b, step_rows ndpus (timer i) which reps b) :: rest)
    else some []

/-- Embedding of `main` of the host program after flag parsing and device set-up: the sweep
from `min_bytes`. -/
def main (fuel ndpus : Nat) (timer : Nat → Nat → Nat → Nat → Nat × Nat)
    (min_bytes max_bytes factor reps which : Nat) : Option (List (Nat × List csv_row)) :=
  sweep_loop ndpus timer which reps max_bytes factor fuel 0 min_bytes

/-- The data rows of the CSV file, in the order written. -/
def csv_rows (steps : List (Nat × List csv_row)) : List csv_row :=
  steps.flatMap (fun s => s.2)

/-- Sum of `cycles_total` over the tasklets of one device. -/
def dpu_cycles (outs : Nat → Dpu.bench_out) : Nat :=
  ((List.range NR_TASKLETS).map (fun t => (outs t).cycles_total)).sum

/-- Sum of `ops_done` over the tasklets of one device. -/
def dpu_ops (outs : Nat → Dpu.bench_out) : Nat :=
  ((List.range NR_TASKLETS).map (fun t => (outs t).ops_done)).sum

/-- The nine benchmark variants in the order `main` runs them, each with the
bit of the `--tests` mask that selects it and the name of the row it writes. -/
def variants : List (Nat × row_name) :=
  [(0, .host_h2d), (1, .host_d2h), (7, .host_h2d_prepare_push), (8, .host_d2h_prepare_push),
   (2, .dpu_test 1), (3, .dpu_test 2), (4, .dpu_test 3), (5, .dpu_test 4), (6, .dpu_test 5)]

/-- Number of variants enabled by the mask: the bits `0 .. 8` that are set. -/
def enabled_count (which : Nat) : Nat :=
  ((List.range 9).filter (fun i => which.testBit i)).length

/-- Window number `w` of a fleet of `F` devices as the batching is meant to
lay it out: `min(64, F - 64 w)` buffers, buffer `j` prepared for the device at
enumeration position `64 w + j`. -/
def window_layout (F w : Nat) : window :=
  { pool_sz := min 64 (F - 64 * w),
    calls := (List.range (min 64 (F - 64 * w))).map (fun j => (64 * w + j, j)) }

end Host

set_option maxRecDepth 10000

/-! ## Device engine: sizes, offsets and results -/

namespace Dpu

/-- On a 32-bit value, `x & ~7u` clears the three low bits. -/
theorem align8_down_u32_eq (x : Nat) (hx : x < 2 ^ 32) : align8_down_u32 x = 8 * (x / 8) := by
  unfold align8_down_u32
  apply Nat.eq_of_testBit_eq
  intro i
  have h1 : (7 ^^^ 0xFFFFFFFF) = (2 ^ 29 - 1) <<< 3 := by decide
  have h2 : 8 * (x / 8) = (x >>> 3) <<< 3 := by
    rw [Nat.shiftLeft_eq, Nat.shiftRight_eq_div_pow]; omega
  rw [h1, h2, Nat.testBit_and, Nat.testBit_shiftLeft, Nat.testBit_shiftLeft,
    Nat.testBit_shiftRight, Nat.testBit_two_pow_sub_one]
  by_cases h3 : 3 ≤ i
  · by_cases h4 : i < 32
    · have : i - 3 < 29 := by omega
      simp [h3, this]
    · have hb : x.testBit i = false := by
        apply Nat.testBit_lt_two_pow
        calc x < 2 ^ 32 := hx
          _ ≤ 2 ^ i := Nat.pow_le_pow_right (by decide) (by omega)
      have : 3 + (i - 3) = i := by omega
      simp [h3, this, hb]
  · simp [h3]

/-- The requested size is capped at `CHUNK_MAX`. -/
theorem mram_req_eq (b : Nat) : mram_req b = min b 2048 := by
  unfold mram_req CHUNK_MAX
  split <;> omega

/-- The effective size is the capped request rounded down to a multiple of 8. -/
theorem mram_sz_eq (b : Nat) : mram_sz b = 8 * (min b 2048 / 8) := by
  unfold mram_sz
  rw [mram_req_eq, align8_down_u32_eq]
  have : min b 2048 ≤ 2048 := Nat.min_le_right _ _
  omega

/-- The effective size is zero exactly for requests below 8 bytes. -/
theorem mram_sz_eq_zero_iff (b : Nat) : mram_sz b = 0 ↔ b < 8 := by
  rw [mram_sz_eq]
  omega

/-- A loop that stops at the first index whose guard fails visits exactly the
indices before it. -/
theorem takeWhile_map_range {α : Type} (f : Nat → α) (p : α → Bool) (n m : Nat) (hnm : n ≤ m)
    (hpos : ∀ r, r < n → p (f r) = true) (hneg : n < m → p (f n) = false) :
    ((List.range m).map f).takeWhile p = (List.range n).map f := by
  obtain ⟨k, rfl⟩ := Nat.exists_eq_add_of_le hnm
  rw [List.range_add, List.map_append, List.takeWhile_append_of_pos]
  · cases k with
    | zero => simp
    | succ k =>
      have h := hneg (by omega)
      simp [List.range_succ_eq_map, h]
  · intro a ha
    simp only [List.mem_map, List.mem_range] at ha
    obtain ⟨r, _, rfl⟩ := ha
    exact hpos r (by assumption)

/-- The `r`-th offset the repetition loop accesses is the offset computed for
repetition index `r`. -/
theorem mram_loop_getElem? (base stride sz reps r idx : Nat)
    (h : (mram_loop base stride sz reps)[r]? = some idx) :
    idx = mram_idx base stride sz r ∧ r < reps := by
  unfold mram_loop at h
  obtain ⟨t, ht⟩ := List.takeWhile_prefix (fun idx => !(mram_clamp idx sz))
    (l := (List.range reps).map (mram_idx base stride sz))
  have hr : r < (List.takeWhile (fun idx => !(mram_clamp idx sz))
      ((List.range reps).map (mram_idx base stride sz))).length := by
    by_contra hc
    rw [List.getElem?_eq_none (by omega)] at h
    exact Option.noConfusion h
  have h2 : ((List.range reps).map (mram_idx base stride sz))[r]? = some idx := by
    rw [← ht, List.getElem?_append_left hr]
    exact h
  rw [List.getElem?_map] at h2
  by_cases hlt : r < reps
  · rw [List.getElem?_range hlt] at h2
    simp at h2
    exact ⟨h2.symm, hlt⟩
  · rw [List.getElem?_eq_none (by simpa using hlt)] at h2
    simp at h2

/-- Trace of `bench_mram_read` when the effective size is not zero. -/
theorem bench_mram_read_trace (tid : Nat) (c : bench_cfg) (start stop : Nat) (o : bench_out) :
    (bench_mram_read tid c start stop o).2 =
      if mram_sz c.bytes = 0 then []
      else (mram_loop (mram_base tid (align8_down_u32 c.stride) (mram_sz c.bytes))
        (align8_down_u32 c.stride) (mram_sz c.bytes) c.reps).map
          (fun idx => mram_op.mram_read idx (mram_sz c.bytes)) := by
  unfold bench_mram_read
  by_cases h : mram_sz c.bytes = 0 <;> simp [h]

/-- Trace of `bench_mram_write` when the effective size is not zero. -/
theorem bench_mram_write_trace (tid : Nat) (c : bench_cfg) (start stop : Nat) (o : bench_out) :
    (bench_mram_write tid c start stop o).2 =
      if mram_sz c.bytes = 0 then []
      else (mram_loop (mram_base tid (align8_down_u32 c.stride) (mram_sz c.bytes))
        (align8_down_u32 c.stride) (mram_sz c.bytes) c.reps).map
          (fun idx => mram_op.mram_write idx (mram_sz c.bytes)) := by
  unfold bench_mram_write
  by_cases h : mram_sz c.bytes = 0 <;> simp [h]

/-- Every access of `bench_mram_read` has the effective size. -/
theorem bench_mram_read_sz (tid : Nat) (c : bench_cfg) (start stop : Nat) (o : bench_out)
    (a : mram_op) (ha : a ∈ (bench_mram_read tid c start stop o).2) : a.sz = mram_sz c.bytes := by
  rw [bench_mram_read_trace] at ha
  split at ha
  · simp at ha
  · simp only [List.mem_map] at ha
    obtain ⟨idx, _, rfl⟩ := ha
    rfl

/-- Every access of `bench_mram_write` has the effective size. -/
theorem bench_mram_write_sz (tid : Nat) (c : bench_cfg) (start stop : Nat) (o : bench_out)
    (a : mram_op) (ha : a ∈ (bench_mram_write tid c start stop o).2) :
    a.sz = mram_sz c.bytes := by
  rw [bench_mram_write_trace] at ha
  split at ha
  · simp at ha
  · simp only [List.mem_map] at ha
    obtain ⟨idx, _, rfl⟩ := ha
    rfl

/-- C5: for every requested size `b`, the effective size `sz` of `bench_mram_read`
and `bench_mram_write` is `8 * floor(min(b, 2048) / 8)`, it is zero exactly when
`b < 8`, and every region access the two functions make has that size. -/
theorem effective_size (b : Nat) :
    mram_sz b = 8 * (min b 2048 / 8) ∧ (mram_sz b = 0 ↔ b < 8) ∧
    ∀ (tid test_id stride reps flags start stop : Nat) (o : bench_out) (a : mram_op),
      (a ∈ (bench_mram_read tid ⟨test_id, b, stride, reps, flags⟩ start stop o).2 →
        a.sz = 8 * (min b 2048 / 8)) ∧
      (a ∈ (bench_mram_write tid ⟨test_id, b, stride, reps, flags⟩ start stop o).2 →
        a.sz = 8 * (min b 2048 / 8)) := by
  refine ⟨mram_sz_eq b, mram_sz_eq_zero_iff b, ?_⟩
  intro tid test_id stride reps flags start stop o a
  constructor
  · intro ha
    rw [bench_mram_read_sz _ _ _ _ _ a ha, mram_sz_eq]
  · intro ha
    rw [bench_mram_write_sz _ _ _ _ _ a ha, mram_sz_eq]

end Dpu

namespace Dpu

/-- Offsets computed from a base and a step that are multiples of 8. -/
theorem mram_idx_aligned (b t u r : Nat) :
    mram_idx (8 * b) (8 * t) (8 * u) r =
      (8 * b + r * (if 8 * t ≠ 0 then 8 * t else 8 * u)) % 2 ^ 32 ∧
    8 ∣ mram_idx (8 * b) (8 * t) (8 * u) r := by
  unfold mram_idx u32
  have key : ∀ m : Nat, (8 * b + r * (8 * m) % 2 ^ 32) % 2 ^ 32 = (8 * b + r * (8 * m)) % 2 ^ 32 ∧
      8 ∣ (8 * b + r * (8 * m) % 2 ^ 32) % 2 ^ 32 := by
    intro m
    have e : r * (8 * m) = 8 * (r * m) := by ring
    rw [e]
    generalize r * m = w
    constructor
    · omega
    · omega
  split
  · exact key t
  · exact key u

/-- C9: for every descriptor with a 32-bit stride, every unit index `tid` and
every repetition index `r`, the base offset of `bench_mram_read` and
`bench_mram_write` is `tid * step` (mod `2 ^ 32`) rounded down to a multiple of
8, where `step` is the stride rounded down to a multiple of 8 or, when that is
zero, the effective size; and the `r`-th region access of either function is at
offset `(base + r * step) % 2 ^ 32`, a multiple of 8. -/
theorem mram_offsets (tid : Nat) (c : bench_cfg) (start stop : Nat) (o : bench_out)
    (hs : c.stride < 2 ^ 32) :
    let s := 8 * (c.stride / 8)
    let sz := 8 * (min c.bytes 2048 / 8)
    let step := if s ≠ 0 then s else sz
    let base := 8 * ((tid * step % 2 ^ 32) / 8)
    mram_base tid (align8_down_u32 c.stride) (mram_sz c.bytes) = base ∧
    (∀ (r : Nat) (a : mram_op), (bench_mram_read tid c start stop o).2[r]? = some a →
      a.idx = (base + r * step) % 2 ^ 32 ∧ 8 ∣ a.idx) ∧
    (∀ (r : Nat) (a : mram_op), (bench_mram_write tid c start stop o).2[r]? = some a →
      a.idx = (base + r * step) % 2 ^ 32 ∧ 8 ∣ a.idx) := by
  intro s sz step base
  have hstride : align8_down_u32 c.stride = s := align8_down_u32_eq _ hs
  have hsz : mram_sz c.bytes = sz := mram_sz_eq _
  have hbase : mram_base tid s sz = base := by
    unfold mram_base u32
    rw [align8_down_u32_eq _ (Nat.mod_lt _ (by decide))]
  have hidx : ∀ r, mram_idx base s sz r = (base + r * step) % 2 ^ 32 ∧
      8 ∣ mram_idx base s sz r := fun r => mram_idx_aligned _ _ _ r
  rw [hstride, hsz]
  refine ⟨hbase, ?_, ?_⟩
  · intro r a h
    rw [bench_mram_read_trace, hstride, hsz, hbase] at h
    split at h
    · simp at h
    · rw [List.getElem?_map] at h
      cases hl : (mram_loop base s sz c.reps)[r]? with
      | none => rw [hl] at h; simp at h
      | some idx =>
        rw [hl] at h
        simp only [Option.map_some', Option.some.injEq] at h
        subst h
        obtain ⟨he, _⟩ := mram_loop_getElem? _ _ _ _ _ _ hl
        subst he
        exact hidx r
  · intro r a h
    rw [bench_mram_write_trace, hstride, hsz, hbase] at h
    split at h
    · simp at h
    · rw [List.getElem?_map] at h
      cases hl : (mram_loop base s sz c.reps)[r]? with
      | none => rw [hl] at h; simp at h
      | some idx =>
        rw [hl] at h
        simp only [Option.map_some', Option.some.injEq] at h
        subst h
        obtain ⟨he, _⟩ := mram_loop_getElem? _ _ _ _ _ _ hl
        subst he
        exact hidx r

/-- Witness of C9 at tasklet 3 with `bytes = 100`, `stride = 20`, `reps = 5`. -/
theorem mram_offsets_witness :
    let c : bench_cfg := ⟨1, 100, 20, 5, 0⟩
    mram_base 3 (align8_down_u32 c.stride) (mram_sz c.bytes) = 8 * ((3 * 16 % 2 ^ 32) / 8) ∧
    (∀ (r : Nat) (a : mram_op), (bench_mram_read 3 c 0 9 ⟨0, 0, 0⟩).2[r]? = some a →
      a.idx = (48 + r * 16) % 2 ^ 32 ∧ 8 ∣ a.idx) ∧
    (∀ (r : Nat) (a : mram_op), (bench_mram_write 3 c 0 9 ⟨0, 0, 0⟩).2[r]? = some a →
      a.idx = (48 + r * 16) % 2 ^ 32 ∧ 8 ∣ a.idx) :=
  mram_offsets 3 ⟨1, 100, 20, 5, 0⟩ 0 9 ⟨0, 0, 0⟩ (by decide)

/-- C1 (the code at a failing input): with `bytes = 8`, `stride = 0xFFFFFFF8`,
`reps = 1`, tasklet 1 computes `idx = 4294967288`; the 32-bit sum `idx + sz`
wraps to 0, the guard does not fire, and the access at `idx` with `sz = 8` is
made although `idx + sz` exceeds the 8 MiB region. -/
theorem mram_access_past_region :
    (main 1 ⟨1, 8, 0xFFFFFFF8, 1, 0⟩ 0 0 ⟨0, 0, 0⟩).2 = [.mram_read 4294967288 8] ∧
    (main 1 ⟨2, 8, 0xFFFFFFF8, 1, 0⟩ 0 0 ⟨0, 0, 0⟩).2 = [.mram_write 4294967288 8] ∧
    ¬ (4294967288 + 8 ≤ MRAM_BUF_SIZE) := by
  decide

/-- The repetition loop with base 0, stride 0 and size 2048 stops after 4096
accesses. -/
theorem mram_loop_full_region (reps : Nat) (h : 4096 ≤ reps) :
    mram_loop 0 0 2048 reps = (List.range 4096).map (mram_idx 0 0 2048) := by
  unfold mram_loop
  apply takeWhile_map_range _ _ _ _ h
  · intro r hr
    simp only [mram_clamp, mram_idx, u32, MRAM_BUF_SIZE, Bool.not_eq_true', decide_eq_false_iff_not]
    simp
    omega
  · intro _
    decide

/-- C2 (the code at a failing input): with `bytes = 2048`, `stride = 0`,
`reps = 4097`, tasklet 0 makes 4096 region accesses (the loop breaks at
`r = 4096`) and stores `ops_done = 4097`. -/
theorem ops_done_after_break :
    (bench_mram_read 0 ⟨1, 2048, 0, 4097, 0⟩ 0 0 ⟨0, 0, 0⟩).2.length = 4096 ∧
    (bench_mram_read 0 ⟨1, 2048, 0, 4097, 0⟩ 0 0 ⟨0, 0, 0⟩).1.ops_done = 4097 ∧
    (bench_mram_write 0 ⟨2, 2048, 0, 4097, 0⟩ 0 0 ⟨0, 0, 0⟩).2.length = 4096 ∧
    (bench_mram_write 0 ⟨2, 2048, 0, 4097, 0⟩ 0 0 ⟨0, 0, 0⟩).1.ops_done = 4097 := by
  have hsz : mram_sz 2048 = 2048 := by decide
  have hst : align8_down_u32 0 = 0 := by decide
  have hb : mram_base 0 0 2048 = 0 := by decide
  refine ⟨?_, ?_, ?_, ?_⟩
  · rw [bench_mram_read_trace]
    simp only [hsz, hst, hb]
    rw [mram_loop_full_region 4097 (by decide)]
    simp
  · simp [bench_mram_read, hsz]
  · rw [bench_mram_write_trace]
    simp only [hsz, hst, hb]
    rw [mram_loop_full_region 4097 (by decide)]
    simp
  · simp [bench_mram_write, hsz]

end Dpu

namespace Dpu

/-- Every offset the repetition loop accesses passed the guard. -/
theorem mram_loop_guard (base stride sz reps r idx : Nat)
    (h : (mram_loop base stride sz reps)[r]? = some idx) : mram_clamp idx sz = false := by
  have hm := List.mem_takeWhile_imp (List.getElem?_mem h)
  simpa using hm

/-- With an aligned stride of 0, a base of at most `15 * 2048` and a size of at
most 2048, the 32-bit arithmetic of the loop never wraps: the `r`-th access is
at `base + r * sz` and ends inside the region. -/
theorem mram_loop_in_region (base sz reps : Nat) (hb : base ≤ 30720) (hsz : sz ≤ 2048) :
    ∀ (r idx : Nat), (mram_loop base 0 sz reps)[r]? = some idx →
      idx = base + r * sz ∧ idx + sz ≤ MRAM_BUF_SIZE := by
  have hstep : ∀ (r idx : Nat), base + r * sz ≤ MRAM_BUF_SIZE →
      (mram_loop base 0 sz reps)[r]? = some idx →
      idx = base + r * sz ∧ idx + sz ≤ MRAM_BUF_SIZE := by
    intro r idx hle h
    have hg := mram_loop_guard _ _ _ _ _ _ h
    obtain ⟨he, _⟩ := mram_loop_getElem? _ _ _ _ _ _ h
    unfold MRAM_BUF_SIZE at hle
    have hi : idx = base + r * sz := by
      rw [he]
      unfold mram_idx u32
      simp only [ne_eq, not_true_eq_false, if_false]
      omega
    subst hi
    refine ⟨rfl, ?_⟩
    unfold mram_clamp u32 MRAM_BUF_SIZE at hg
    unfold MRAM_BUF_SIZE
    simp only [gt_iff_lt, decide_eq_false_iff_not, not_lt] at hg
    omega
  intro r
  induction r with
  | zero =>
    intro idx h
    exact hstep 0 idx (by unfold MRAM_BUF_SIZE; omega) h
  | succ r ih =>
    intro idx h
    have hlen : r + 1 < (mram_loop base 0 sz reps).length := by
      by_contra hc
      rw [List.getElem?_eq_none (by omega)] at h
      exact Option.noConfusion h
    obtain ⟨h1, h2⟩ := ih _ (List.getElem?_eq_getElem (show r < _ by omega))
    have hle : base + (r + 1) * sz ≤ MRAM_BUF_SIZE := by
      have : (r + 1) * sz = r * sz + sz := by ring
      omega
    exact hstep (r + 1) idx hle h

/-- With a stride below 8 (so an aligned stride of 0, as in every launch the
host driver makes) and a unit index below 16, every region access of
`bench_mram_read` and `bench_mram_write` ends inside the 8 MiB region. -/
theorem mram_in_region_without_stride (tid : Nat) (c : bench_cfg) (start stop : Nat)
    (o : bench_out) (htid : tid < 16) (hs : c.stride < 8) (a : mram_op) :
    (a ∈ (bench_mram_read tid c start stop o).2 → a.idx + a.sz ≤ MRAM_BUF_SIZE) ∧
    (a ∈ (bench_mram_write tid c start stop o).2 → a.idx + a.sz ≤ MRAM_BUF_SIZE) := by
  have hst : align8_down_u32 c.stride = 0 := by
    rw [align8_down_u32_eq _ (by omega)]
    omega
  have hszle : mram_sz c.bytes ≤ 2048 := by
    rw [mram_sz_eq]
    have : min c.bytes 2048 ≤ 2048 := Nat.min_le_right _ _
    omega
  have hbase : mram_base tid 0 (mram_sz c.bytes) ≤ 30720 := by
    unfold mram_base u32
    simp only [ne_eq, not_true_eq_false, if_false]
    have hmul : tid * mram_sz c.bytes ≤ 15 * 2048 :=
      Nat.mul_le_mul (by omega) hszle
    rw [align8_down_u32_eq _ (Nat.mod_lt _ (by decide))]
    omega
  constructor
  · intro ha
    rw [bench_mram_read_trace, hst] at ha
    split at ha
    · simp at ha
    · simp only [List.mem_map] at ha
      obtain ⟨idx, hidx, rfl⟩ := ha
      obtain ⟨r, hr⟩ := List.getElem?_of_mem hidx
      exact (mram_loop_in_region _ _ _ hbase hszle r idx hr).2
  · intro ha
    rw [bench_mram_write_trace, hst] at ha
    split at ha
    · simp at ha
    · simp only [List.mem_map] at ha
      obtain ⟨idx, hidx, rfl⟩ := ha
      obtain ⟨r, hr⟩ := List.getElem?_of_mem hidx
      exact (mram_loop_in_region _ _ _ hbase hszle r idx hr).2

end Dpu

/-! ## Host driver: transfer sizes and aggregation -/

/-- Clearing the three low bits with a mask of `k` ones shifted by 3. -/
theorem and_mask_eq (x k : Nat) (hx : x < 2 ^ (k + 3)) :
    x &&& ((2 ^ k - 1) <<< 3) = 8 * (x / 8) := by
  apply Nat.eq_of_testBit_eq
  intro i
  have h2 : 8 * (x / 8) = (x >>> 3) <<< 3 := by
    rw [Nat.shiftLeft_eq, Nat.shiftRight_eq_div_pow]; omega
  rw [h2, Nat.testBit_and, Nat.testBit_shiftLeft, Nat.testBit_shiftLeft,
    Nat.testBit_shiftRight, Nat.testBit_two_pow_sub_one]
  by_cases h3 : 3 ≤ i
  · by_cases h4 : i < k + 3
    · have : i - 3 < k := by omega
      simp [h3, this]
    · have hb : x.testBit i = false := by
        apply Nat.testBit_lt_two_pow
        calc x < 2 ^ (k + 3) := hx
          _ ≤ 2 ^ i := Nat.pow_le_pow_right (by decide) (by omega)
      have : 3 + (i - 3) = i := by omega
      simp [h3, this, hb]
  · simp [h3]

/-- Integers below `2 ^ 53` convert to `double` exactly. -/
theorem to_double_exact (n : Nat) (h : n < 2 ^ 53) : to_double n = n := by
  have he : excess_bits n n = 0 := by
    cases n with
    | zero => rfl
    | succ k =>
      unfold excess_bits
      rw [if_pos h]
  simp [to_double, he, Nat.mod_one]

/-- A `double` sum of integers is exact while it stays below `2 ^ 53`. -/
theorem double_add_exact (a b : Nat) (h : a + b < 2 ^ 53) : double_add a (to_double b) = a + b := by
  have hb : to_double b = b := to_double_exact b (by omega)
  rw [hb]
  exact to_double_exact _ h

namespace Host

/-- On a 64-bit value, `x & ~(size_t)7` clears the three low bits. -/
theorem align8_down_eq (x : Nat) (hx : x < 2 ^ 64) : align8_down x = 8 * (x / 8) := by
  unfold align8_down
  have h1 : (7 ^^^ 0xFFFFFFFFFFFFFFFF) = (2 ^ 61 - 1) <<< 3 := by decide
  rw [h1]
  exact and_mask_eq x 61 hx

/-- The transfer size every host routine computes. -/
theorem xfer_eq (b : Nat) :
    (if align8_down (clamp_to_buf b) < 8 then 8 else align8_down (clamp_to_buf b)) =
      max 8 (8 * (min b 8388608 / 8)) := by
  have hc : clamp_to_buf b = min b 8388608 := by
    unfold clamp_to_buf MRAM_BUF_SIZE
    split <;> omega
  have hlt : min b 8388608 < 2 ^ 64 := by
    have : min b 8388608 ≤ 8388608 := Nat.min_le_right _ _
    omega
  rw [hc, align8_down_eq _ hlt]
  split <;> omega

/-- C6: for every requested size `b`, each of the four host routines computes
the transfer size `max(8, 8 * floor(min(b, 8388608) / 8))` (the size it prints in
its row); this size is a multiple of 8, lies between 8 and 8 MiB, and is at
most `b` whenever `b >= 8`. -/
theorem host_xfer_size (b reps : Nat) :
    (run_host_to_dpu b reps).bytes = max 8 (8 * (min b 8388608 / 8)) ∧
    (run_dpu_to_host b reps).bytes = max 8 (8 * (min b 8388608 / 8)) ∧
    (run_prepare_push_h2d b reps).bytes = max 8 (8 * (min b 8388608 / 8)) ∧
    (run_prepare_push_d2h b reps).bytes = max 8 (8 * (min b 8388608 / 8)) ∧
    8 ∣ max 8 (8 * (min b 8388608 / 8)) ∧
    8 ≤ max 8 (8 * (min b 8388608 / 8)) ∧
    max 8 (8 * (min b 8388608 / 8)) ≤ 8388608 ∧
    (8 ≤ b → max 8 (8 * (min b 8388608 / 8)) ≤ b) := by
  have hm : min b 8388608 ≤ 8388608 := Nat.min_le_right _ _
  have hb : min b 8388608 ≤ b := Nat.min_le_left _ _
  refine ⟨xfer_eq b, xfer_eq b, xfer_eq b, xfer_eq b, ?_, ?_, ?_, ?_⟩
  · omega
  · omega
  · omega
  · intro h8
    have : 8 ≤ min b 8388608 := by
      rw [Nat.le_min]; exact ⟨h8, by decide⟩
    omega

/-- The accumulation over a list of tasklets is exact while both totals stay
below `2 ^ 53`. -/
theorem foldl_double_add (f g : Nat → Nat) (l : List Nat) (a : Nat × Nat)
    (h1 : a.1 + (l.map f).sum < 2 ^ 53) (h2 : a.2 + (l.map g).sum < 2 ^ 53) :
    l.foldl (fun a t => (double_add a.1 (to_double (f t)), double_add a.2 (to_double (g t)))) a =
      (a.1 + (l.map f).sum, a.2 + (l.map g).sum) := by
  induction l generalizing a with
  | nil => simp
  | cons t l ih =>
    simp only [List.map_cons, List.sum_cons] at h1 h2
    simp only [List.foldl_cons, List.map_cons, List.sum_cons]
    rw [double_add_exact _ _ (by omega), double_add_exact _ _ (by omega)]
    rw [ih _ (by simpa [Nat.add_assoc] using h1) (by simpa [Nat.add_assoc] using h2)]
    simp [Nat.add_assoc]

/-- The accumulation over one device is exact while both totals stay below
`2 ^ 53`. -/
theorem sum_outs_exact (acc : Nat × Nat) (outs : Nat → Dpu.bench_out)
    (h1 : acc.1 + dpu_cycles outs < 2 ^ 53) (h2 : acc.2 + dpu_ops outs < 2 ^ 53) :
    sum_outs acc outs = (acc.1 + dpu_cycles outs, acc.2 + dpu_ops outs) :=
  foldl_double_add (fun t => (outs t).cycles_total) (fun t => (outs t).ops_done) _ acc h1 h2

/-- The accumulation over a fleet is exact while both totals stay below
`2 ^ 53`. -/
theorem foldl_sum_outs_exact (outs : Nat → Nat → Dpu.bench_out) (l : List Nat) (acc : Nat × Nat)
    (h1 : acc.1 + (l.map (fun d => dpu_cycles (outs d))).sum < 2 ^ 53)
    (h2 : acc.2 + (l.map (fun d => dpu_ops (outs d))).sum < 2 ^ 53) :
    l.foldl (fun acc d => sum_outs acc (outs d)) acc =
      (acc.1 + (l.map (fun d => dpu_cycles (outs d))).sum,
       acc.2 + (l.map (fun d => dpu_ops (outs d))).sum) := by
  induction l generalizing acc with
  | nil => simp
  | cons d l ih =>
    simp only [List.map_cons, List.sum_cons] at h1 h2
    simp only [List.foldl_cons, List.map_cons, List.sum_cons]
    rw [sum_outs_exact _ _ (by omega) (by omega)]
    rw [ih _ (by simpa [Nat.add_assoc] using h1) (by simpa [Nat.add_assoc] using h2)]
    simp [Nat.add_assoc]

/-- The `sum_ops` accumulator does not depend on the cycle counts. -/
theorem foldl_sum_outs_snd (outs : Nat → Nat → Dpu.bench_out) (l : List Nat) (acc : Nat × Nat) :
    (l.foldl (fun acc d => sum_outs acc (outs d)) acc).2 =
      l.foldl (fun a d => (List.range NR_TASKLETS).foldl
        (fun a t => double_add a (to_double (outs d t).ops_done)) a) acc.2 := by
  have inner : ∀ (o : Nat → Dpu.bench_out) (ts : List Nat) (a : Nat × Nat),
      (ts.foldl (fun a t => (double_add a.1 (to_double (o t).cycles_total),
        double_add a.2 (to_double (o t).ops_done))) a).2 =
      ts.foldl (fun a t => double_add a (to_double (o t).ops_done)) a.2 := by
    intro o ts
    induction ts with
    | nil => intro a; rfl
    | cons t ts ih => intro a; simp only [List.foldl_cons]; rw [ih]
  induction l generalizing acc with
  | nil => rfl
  | cons d l ih =>
    simp only [List.foldl_cons]
    rw [ih]
    unfold sum_outs
    rw [inner]

/-- The `sum_cycles` accumulator does not depend on the operation counts. -/
theorem foldl_sum_outs_fst (outs : Nat → Nat → Dpu.bench_out) (l : List Nat) (acc : Nat × Nat) :
    (l.foldl (fun acc d => sum_outs acc (outs d)) acc).1 =
      l.foldl (fun a d => (List.range NR_TASKLETS).foldl
        (fun a t => double_add a (to_double (outs d t).cycles_total)) a) acc.1 := by
  have inner : ∀ (o : Nat → Dpu.bench_out) (ts : List Nat) (a : Nat × Nat),
      (ts.foldl (fun a t => (double_add a.1 (to_double (o t).cycles_total),
        double_add a.2 (to_double (o t).ops_done))) a).1 =
      ts.foldl (fun a t => double_add a (to_double (o t).cycles_total)) a.1 := by
    intro o ts
    induction ts with
    | nil => intro a; rfl
    | cons t ts ih => intro a; simp only [List.foldl_cons]; rw [ih]
  induction l generalizing acc with
  | nil => rfl
  | cons d l ih =>
    simp only [List.foldl_cons]
    rw [ih]
    unfold sum_outs
    rw [inner]

/-- One `double` accumulator over a list of tasklets is exact while its total
stays below `2 ^ 53`. -/
theorem foldl_double_exact (g : Nat → Nat) (l : List Nat) (a : Nat)
    (h : a + (l.map g).sum < 2 ^ 53) :
    l.foldl (fun a t => double_add a (to_double (g t))) a = a + (l.map g).sum := by
  induction l generalizing a with
  | nil => simp
  | cons t l ih =>
    simp only [List.map_cons, List.sum_cons] at h
    simp only [List.foldl_cons, List.map_cons, List.sum_cons]
    rw [double_add_exact _ _ (by omega), ih _ (by omega)]
    omega

/-- One `double` accumulator over a fleet is exact while its total stays below
`2 ^ 53`. -/
theorem foldl_fleet_exact (g : Nat → Nat → Nat) (l : List Nat) (a : Nat)
    (h : a + (l.map (fun d => ((List.range NR_TASKLETS).map (g d)).sum)).sum < 2 ^ 53) :
    l.foldl (fun a d => (List.range NR_TASKLETS).foldl
        (fun a t => double_add a (to_double (g d t))) a) a =
      a + (l.map (fun d => ((List.range NR_TASKLETS).map (g d)).sum)).sum := by
  induction l generalizing a with
  | nil => simp
  | cons d l ih =>
    simp only [List.map_cons, List.sum_cons] at h
    simp only [List.foldl_cons, List.map_cons, List.sum_cons]
    rw [foldl_double_exact (g d) _ a (by omega), ih _ (by omega)]
    omega

/-- Sum of a constant over the first `n` indices. -/
theorem sum_map_const (c n : Nat) : ((List.range n).map (fun _ => c)).sum = n * c := by
  induction n with
  | zero => simp
  | succ n ih =>
    rw [List.range_succ, List.map_append, List.sum_append, ih]
    simp only [List.map_cons, List.map_nil, List.sum_cons, List.sum_nil]
    rw [Nat.succ_mul]
    omega

/-- A fleet whose units all report the same count `c`: the accumulator is exact
while the total stays below `2 ^ 53`. -/
theorem foldl_const_exact (c n a : Nat) (h : a + n * (16 * c) < 2 ^ 53) :
    (List.range n).foldl (fun a _ => (List.range NR_TASKLETS).foldl
        (fun a _ => double_add a (to_double c)) a) a = a + n * (16 * c) := by
  have hinner : ((List.range NR_TASKLETS).map (fun _ => c)).sum = 16 * c := by
    rw [sum_map_const]; rfl
  have hsum : ((List.range n).map
      (fun _ => ((List.range NR_TASKLETS).map (fun _ => c)).sum)).sum = n * (16 * c) := by
    rw [hinner, sum_map_const]
  have hfirst := foldl_fleet_exact (fun _ _ => c) (List.range n) a (by rw [hsum]; exact h)
  rw [hsum] at hfirst
  exact hfirst

end Host

namespace Dpu

/-- C4 (the claim at a failing input): with `bytes = 0` and `reps = 8`, test
kind 4 stores `ops_done = 8` and the measured cycle count, not zeros. -/
theorem zero_bytes_barrier_counts :
    (main 0 ⟨4, 0, 0, 8, 0⟩ 0 100 ⟨0, 0, 0⟩).1.ops_done = 8 ∧
    (main 0 ⟨4, 0, 0, 8, 0⟩ 0 100 ⟨0, 0, 0⟩).1.cycles_total = 100 ∧
    ¬ ((main 0 ⟨4, 0, 0, 8, 0⟩ 0 100 ⟨0, 0, 0⟩).1.ops_done = 0 ∧
       (main 0 ⟨4, 0, 0, 8, 0⟩ 0 100 ⟨0, 0, 0⟩).1.cycles_total = 0) := by
  decide

/-- With `bytes = 0`, test kinds 1 and 2 store zeros and access nothing. -/
theorem main_zero_bytes (test_id tid stride reps flags start stop : Nat) (o : bench_out)
    (h : test_id = 1 ∨ test_id = 2) :
    main tid ⟨test_id, 0, stride, reps, flags⟩ start stop o =
      ({ o with cycles_total := 0, ops_done := 0 }, []) := by
  have hz : mram_sz 0 = 0 := by decide
  rcases h with h | h <;> subst h
  · simp [main, bench_mram_read, hz]
  · simp [main, bench_mram_write, hz]

end Dpu

namespace Host

/-- C4 (amended): for test kinds 1 and 2, every unit index and every repetition
count, a descriptor with `bytes = 0` makes the unit store `ops_done = 0` and
`cycles_total = 0` without any region access, so the row `run_on_dpu` prints
has `sum_cycles = 0` and `sum_ops = 0`; test kinds 4 and 5 do not read `bytes`
and store `ops_done = reps`. -/
theorem zero_bytes_result (test_id tid stride reps flags start stop : Nat) (o : Dpu.bench_out)
    (h : test_id = 1 ∨ test_id = 2) :
    (Dpu.main tid ⟨test_id, 0, stride, reps, flags⟩ start stop o).1.ops_done = 0 ∧
    (Dpu.main tid ⟨test_id, 0, stride, reps, flags⟩ start stop o).1.cycles_total = 0 ∧
    (Dpu.main tid ⟨test_id, 0, stride, reps, flags⟩ start stop o).2 = [] ∧
    (∀ (ndpus : Nat) (timer : Nat → Nat → Nat × Nat),
      (run_on_dpu ndpus timer test_id 0 stride reps).sums = some (0, 0)) ∧
    (∀ b : Nat, (Dpu.main tid ⟨4, b, stride, reps, flags⟩ start stop o).1.ops_done = reps ∧
      (Dpu.main tid ⟨5, b, stride, reps, flags⟩ start stop o).1.ops_done = reps) := by
  rw [Dpu.main_zero_bytes _ _ _ _ _ _ _ _ h]
  refine ⟨rfl, rfl, rfl, ?_, ?_⟩
  · intro ndpus timer
    have hl : ∀ d, dpu_launch (timer d) ⟨test_id, u32 0, stride, reps, 0⟩ = fun _ => ⟨0, 0, 0⟩ := by
      intro d
      funext t
      unfold dpu_launch
      have : u32 0 = 0 := rfl
      rw [this, Dpu.main_zero_bytes _ _ _ _ _ _ _ _ h]
    have hc : ∀ d, dpu_cycles (dpu_launch (timer d) ⟨test_id, u32 0, stride, reps, 0⟩) = 0 := by
      intro d; rw [hl]; rfl
    have ho : ∀ d, dpu_ops (dpu_launch (timer d) ⟨test_id, u32 0, stride, reps, 0⟩) = 0 := by
      intro d; rw [hl]; rfl
    unfold run_on_dpu
    simp only
    rw [foldl_sum_outs_exact (fun d => dpu_launch (timer d) ⟨test_id, u32 0, stride, reps, 0⟩)]
    · simp [hc, ho]
    · simp [hc]
    · simp [ho]
  · intro b
    constructor <;> simp [Dpu.main, Dpu.bench_barrier, Dpu.bench_reduce]

/-- Witness of the amended C4 at test kind 1, tasklet 3, `reps = 64`. -/
theorem zero_bytes_result_witness :
    (Dpu.main 3 ⟨1, 0, 0, 64, 0⟩ 10 20 ⟨0, 0, 0⟩).1.ops_done = 0 ∧
    (Dpu.main 3 ⟨1, 0, 0, 64, 0⟩ 10 20 ⟨0, 0, 0⟩).1.cycles_total = 0 ∧
    (Dpu.main 3 ⟨1, 0, 0, 64, 0⟩ 10 20 ⟨0, 0, 0⟩).2 = [] ∧
    (∀ (ndpus : Nat) (timer : Nat → Nat → Nat × Nat),
      (run_on_dpu ndpus timer 1 0 0 64).sums = some (0, 0)) ∧
    (∀ b : Nat, (Dpu.main 3 ⟨4, b, 0, 64, 0⟩ 10 20 ⟨0, 0, 0⟩).1.ops_done = 64 ∧
      (Dpu.main 3 ⟨5, b, 0, 64, 0⟩ 10 20 ⟨0, 0, 0⟩).1.ops_done = 64) :=
  zero_bytes_result 1 3 0 64 0 10 20 ⟨0, 0, 0⟩ (Or.inl rfl)

/-- On a fleet of 131073 devices whose units all report `ops_done = 2 ^ 32 - 1`
(test kind 4 with `reps = 2 ^ 32 - 1`), the `sum_ops` accumulator passes
`2 ^ 53` during the last device and ends at 9007267972120576. -/
theorem sum_ops_large_fleet :
    (run_on_dpu 131073 (fun _ _ => (0, 0)) 4 0 0 4294967295).sums.map Prod.snd =
      some 9007267972120576 := by
  unfold run_on_dpu
  simp only [Option.map_some']
  rw [foldl_sum_outs_snd (fun d => dpu_launch ((fun _ _ => (0, 0)) d) ⟨4, u32 0, 0, 4294967295, 0⟩)]
  have hops : ∀ t : Nat,
      (dpu_launch (fun (_ : Nat) => ((0 : Nat), (0 : Nat)))
        ⟨4, u32 0, 0, 4294967295, 0⟩ t).ops_done = 4294967295 := fun _ => rfl
  simp only [hops]
  have hsplit : (131073 : Nat) = 131072 + 1 := rfl
  rw [hsplit, List.range_succ, List.foldl_append,
    foldl_const_exact 4294967295 131072 0 (by decide)]
  decide

/-- The true total of `ops_done` on that fleet. -/
theorem ops_total_large_fleet :
    ((List.range 131073).map (fun d =>
      dpu_ops (dpu_launch ((fun _ _ => (0, 0)) d) ⟨4, u32 0, 0, 4294967295, 0⟩))).sum =
      9007267972120560 := by
  have hd : dpu_ops (dpu_launch (fun (_ : Nat) => ((0 : Nat), (0 : Nat)))
      ⟨4, u32 0, 0, 4294967295, 0⟩) = 68719476720 := by decide
  simp only [hd]
  rw [sum_map_const]

/-- C8 (the claim at failing inputs): on a fleet of one device whose tasklet 0
reports `cycles_total = 2 ^ 53 + 1` and the others 0, the `sum_cycles` that
`run_on_dpu` prints is `2 ^ 53`, not the sum `2 ^ 53 + 1` of the sixteen
`cycles_total`; and on a fleet of 131073 devices whose units all report
`ops_done = 2 ^ 32 - 1`, the `sum_ops` it prints is 9007267972120576, not the
sum 9007267972120560 of the `ops_done`. -/
theorem double_sums_rounded :
    ((run_on_dpu 1 (fun _ tid => if tid = 0 then (0, 2 ^ 53 + 1) else (0, 0)) 4 0 0 1).sums.map
        Prod.fst = some (2 ^ 53) ∧
      ((List.range 1).map (fun d => dpu_cycles (dpu_launch
        ((fun _ tid => if tid = 0 then (0, 2 ^ 53 + 1) else (0, 0)) d) ⟨4, u32 0, 0, 1, 0⟩))).sum =
        2 ^ 53 + 1) ∧
    ((run_on_dpu 131073 (fun _ _ => (0, 0)) 4 0 0 4294967295).sums.map Prod.snd =
        some 9007267972120576 ∧
      ((List.range 131073).map (fun d => dpu_ops (dpu_launch
        ((fun _ _ => (0, 0)) d) ⟨4, u32 0, 0, 4294967295, 0⟩))).sum = 9007267972120560) :=
  ⟨by decide, sum_ops_large_fleet, ops_total_large_fleet⟩

end Host

namespace Host

/-- In the sweep `min = 64`, `max = 64`, `factor = 2`, the loop runs once. -/
theorem sweep_loop_single (ndpus : Nat) (timer : Nat → Nat → Nat → Nat → Nat × Nat)
    (which reps fuel : Nat) (hf : 2 ≤ fuel) :
    main fuel ndpus timer 64 64 2 reps which =
      some [(64, step_rows ndpus (timer 0) which reps 64)] := by
  obtain ⟨f, rfl⟩ := Nat.exists_eq_add_of_le hf
  have h2 : 2 + f = (f + 1) + 1 := by omega
  rw [h2]
  simp [main, sweep_loop, u64]

/-- With the mask `0x4` only the region-read launch runs. -/
theorem step_rows_read_only (ndpus : Nat) (timer : Nat → Nat → Nat → Nat × Nat) (reps b : Nat) :
    step_rows ndpus timer 4 reps b = [run_on_dpu ndpus (timer 1) 1 b 0 reps] := by
  rfl

/-- With `bytes = 64`, `stride = 0`, `reps = 1` every tasklet stores
`ops_done = 1`. -/
theorem launch_read_64_ops (timer : Nat → Nat × Nat) (t : Nat) :
    (dpu_launch timer ⟨1, u32 64, 0, 1, 0⟩ t).ops_done = 1 := by
  have hz : Dpu.mram_sz (u32 64) = 64 := by decide
  simp [dpu_launch, Dpu.main, Dpu.bench_mram_read, hz]

/-- C8 (amended): for every fleet and every launch, the `sum_cycles` that
`run_on_dpu` prints is the sum of `cycles_total` over the 16 units of every
device whenever that sum is below `2 ^ 53`, and the `sum_ops` it prints is the
sum of `ops_done` over the 16 units of every device whenever that sum is below
`2 ^ 53` (each bound on its own: below it the `double` accumulation is exact);
and with `min = 64`, `max = 64`, `factor = 2`, `reps = 1`, mask `0x4` and a
fleet of one device the sweep writes exactly one data row, `dpu_test_1` with
bytes 64, stride 0, reps 1 and `sum_ops = 16`. -/
theorem run_on_dpu_sums (ndpus : Nat) (timer : Nat → Nat → Nat × Nat)
    (test_id bytes stride reps : Nat) :
    (((List.range ndpus).map (fun d =>
        dpu_cycles (dpu_launch (timer d) ⟨test_id, u32 bytes, stride, reps, 0⟩))).sum < 2 ^ 53 →
      (run_on_dpu ndpus timer test_id bytes stride reps).sums.map Prod.fst =
        some ((List.range ndpus).map (fun d =>
          dpu_cycles (dpu_launch (timer d) ⟨test_id, u32 bytes, stride, reps, 0⟩))).sum) ∧
    (((List.range ndpus).map (fun d =>
        dpu_ops (dpu_launch (timer d) ⟨test_id, u32 bytes, stride, reps, 0⟩))).sum < 2 ^ 53 →
      (run_on_dpu ndpus timer test_id bytes stride reps).sums.map Prod.snd =
        some ((List.range ndpus).map (fun d =>
          dpu_ops (dpu_launch (timer d) ⟨test_id, u32 bytes, stride, reps, 0⟩))).sum) ∧
    ∀ (fuel : Nat) (tm : Nat → Nat → Nat → Nat → Nat × Nat), 2 ≤ fuel →
      (main fuel 1 tm 64 64 2 1 4).map (fun steps => (csv_rows steps).map
        (fun r => (r.name, r.bytes, r.stride, r.reps, r.sums.map Prod.snd))) =
        some [(row_name.dpu_test 1, 64, 0, 1, some 16)] := by
  refine ⟨?_, ?_, ?_⟩
  · intro hc
    unfold run_on_dpu
    simp only [Option.map_some']
    rw [foldl_sum_outs_fst (fun d => dpu_launch (timer d) ⟨test_id, u32 bytes, stride, reps, 0⟩),
      foldl_fleet_exact (fun d t =>
        (dpu_launch (timer d) ⟨test_id, u32 bytes, stride, reps, 0⟩ t).cycles_total) _ 0
        (by simpa [dpu_cycles] using hc)]
    simp [dpu_cycles]
  · intro ho
    unfold run_on_dpu
    simp only [Option.map_some']
    rw [foldl_sum_outs_snd (fun d => dpu_launch (timer d) ⟨test_id, u32 bytes, stride, reps, 0⟩),
      foldl_fleet_exact (fun d t =>
        (dpu_launch (timer d) ⟨test_id, u32 bytes, stride, reps, 0⟩ t).ops_done) _ 0
        (by simpa [dpu_ops] using ho)]
    simp [dpu_ops]
  · intro fuel tm hf
    rw [sweep_loop_single _ _ _ _ _ hf, step_rows_read_only]
    simp only [Option.map_some', csv_rows, List.flatMap_cons, List.flatMap_nil, List.append_nil,
      List.map_cons, List.map_nil]
    have hsnd : (run_on_dpu 1 (tm 0 1) 1 64 0 1).sums.map Prod.snd = some 16 := by
      unfold run_on_dpu
      simp only [Option.map_some']
      rw [foldl_sum_outs_snd (fun d => dpu_launch (tm 0 1 d) ⟨1, u32 64, 0, 1, 0⟩)]
      simp only [launch_read_64_ops]
      decide
    rw [hsnd]
    rfl

/-- Witness of the amended C8 on one device, region read of 64 bytes with
`reps = 1`: with every tasklet measuring 5 cycles the cycle total 80 is below
`2 ^ 53` and `sum_cycles` is 80; with a timer that wrapped on tasklet 0
(`cycles_total = 2 ^ 64 - 1`, cycle total not below `2 ^ 53`) the operation
total 16 is below `2 ^ 53` and `sum_ops` is 16. -/
theorem run_on_dpu_sums_witness :
    (run_on_dpu 1 (fun _ _ => (0, 5)) 1 64 0 1).sums.map Prod.fst = some 80 ∧
    (run_on_dpu 1 (fun _ tid => if tid = 0 then (1, 0) else (0, 5)) 1 64 0 1).sums.map Prod.snd =
      some 16 :=
  ⟨(run_on_dpu_sums 1 (fun _ _ => (0, 5)) 1 64 0 1).1 (by decide),
   (run_on_dpu_sums 1 (fun _ tid => if tid = 0 then (1, 0) else (0, 5)) 1 64 0 1).2.1
     (by decide)⟩

end Host

/-! ## Host driver: the sweep -/

namespace Host

/-- The sweep loop from size `b`, when `b * factor` cannot wrap below
`max_bytes`: it terminates and visits `b * factor ^ k` for the `k` with
`b * factor ^ k ≤ max_bytes`. -/
theorem sweep_loop_sizes (ndpus : Nat) (timer : Nat → Nat → Nat → Nat → Nat × Nat)
    (which reps max_bytes factor : Nat) (hf : 2 ≤ factor) (hmax : max_bytes * factor < 2 ^ 64)
    (m : Nat) : ∀ (b i : Nat), 1 ≤ b → max_bytes + 1 - b ≤ m →
    ∃ n, (∀ k, k < n ↔ b * factor ^ k ≤ max_bytes) ∧
      ∀ fuel, n < fuel →
        (sweep_loop ndpus timer which reps max_bytes factor fuel i b).map (List.map Prod.fst) =
          some ((List.range n).map (fun k => b * factor ^ k)) := by
  induction m with
  | zero =>
    intro b i hb hm
    have hgt : ¬ b ≤ max_bytes := by omega
    refine ⟨0, ?_, ?_⟩
    · intro k
      constructor
      · intro h; omega
      · intro h
        have : b * 1 ≤ b * factor ^ k := Nat.mul_le_mul_left b (Nat.one_le_pow _ _ (by omega))
        omega
    · intro fuel hfuel
      obtain ⟨f, rfl⟩ := Nat.exists_eq_add_of_lt hfuel
      simp [sweep_loop, hgt]
  | succ m ih =>
    intro b i hb hm
    by_cases hle : b ≤ max_bytes
    · have hlt : b * factor < 2 ^ 64 :=
        Nat.lt_of_le_of_lt (Nat.mul_le_mul_right factor hle) hmax
      have hu : u64 (b * factor) = b * factor := Nat.mod_eq_of_lt hlt
      have hgrow : b + 1 ≤ b * factor := by
        have : b * 2 ≤ b * factor := Nat.mul_le_mul_left b hf
        omega
      obtain ⟨n, hn, hrun⟩ := ih (b * factor) (i + 1) (by omega) (by omega)
      refine ⟨n + 1, ?_, ?_⟩
      · intro k
        cases k with
        | zero => simp [hle]
        | succ j =>
          have e : b * factor ^ (j + 1) = b * factor * factor ^ j := by ring
          rw [e, ← hn j]
          omega
      · intro fuel hfuel
        obtain ⟨f, rfl⟩ : ∃ f, fuel = f + 1 := ⟨fuel - 1, by omega⟩
        have hrun' := hrun f (by omega)
        simp only [sweep_loop, hle, if_true, hu, Option.map_map]
        cases hs : sweep_loop ndpus timer which reps max_bytes factor f (i + 1) (b * factor) with
        | none => rw [hs] at hrun'; simp at hrun'
        | some rest =>
          rw [hs] at hrun'
          simp only [Option.map_some', Function.comp_apply, Option.some.injEq] at hrun'
          simp only [Option.map_some', Function.comp_apply, List.map_cons, Option.some.injEq]
          rw [hrun', List.range_succ_eq_map, List.map_cons, List.map_map]
          simp only [pow_zero, mul_one, List.cons.injEq, true_and]
          apply List.map_congr_left
          intro k _
          simp only [Function.comp_apply]
          rw [Nat.pow_succ, Nat.mul_assoc, Nat.mul_comm factor]
    · refine ⟨0, ?_, ?_⟩
      · intro k
        constructor
        · intro h; omega
        · intro h
          have : b * 1 ≤ b * factor ^ k := Nat.mul_le_mul_left b (Nat.one_le_pow _ _ (by omega))
          omega
      · intro fuel hfuel
        obtain ⟨f, rfl⟩ : ∃ f, fuel = f + 1 := ⟨fuel - 1, by omega⟩
        simp [sweep_loop, hle]

/-- The sizes `min * factor ^ k` increase with `k`. -/
theorem sizes_increasing (min_bytes factor n : Nat) (hmin : 1 ≤ min_bytes) (hf : 2 ≤ factor) :
    List.Pairwise (fun a b => a < b) ((List.range n).map (fun k => min_bytes * factor ^ k)) := by
  apply List.Pairwise.map _ _ (List.pairwise_lt_range n)
  intro a b hab
  exact Nat.mul_lt_mul_of_pos_left (Nat.pow_lt_pow_right (by omega) hab) (by omega)

/-- C10: for every `min >= 1`, `factor >= 2` and `max` with `max * factor <
2 ^ 64`, the sweep loop of `main` terminates (any fuel above the number of
sizes suffices) and visits exactly the sizes `min * factor ^ k` with
`min * factor ^ k <= max`, in increasing order (none when `min > max`); with
the defaults `min = 64`, `max = 2 ^ 26`, `factor = 2` it visits 21 sizes. -/
theorem sweep_sizes (ndpus : Nat) (timer : Nat → Nat → Nat → Nat → Nat × Nat)
    (which reps min_bytes max_bytes factor : Nat)
    (hmin : 1 ≤ min_bytes) (hf : 2 ≤ factor) (hmax : max_bytes * factor < 2 ^ 64) :
    (∃ n, (∀ k, k < n ↔ min_bytes * factor ^ k ≤ max_bytes) ∧
      (∀ fuel, n < fuel →
        (main fuel ndpus timer min_bytes max_bytes factor reps which).map (List.map Prod.fst) =
          some ((List.range n).map (fun k => min_bytes * factor ^ k))) ∧
      List.Pairwise (fun a b => a < b)
        ((List.range n).map (fun k => min_bytes * factor ^ k)) ∧
      (max_bytes < min_bytes → n = 0)) ∧
    (∀ fuel, 21 < fuel →
      (main fuel ndpus timer 64 (2 ^ 26) 2 reps which).map List.length = some 21) := by
  constructor
  · obtain ⟨n, hn, hrun⟩ := sweep_loop_sizes ndpus timer which reps max_bytes factor hf hmax
      (max_bytes + 1 - min_bytes) min_bytes 0 hmin (Nat.le_refl _)
    refine ⟨n, hn, hrun, sizes_increasing _ _ _ hmin hf, ?_⟩
    intro hlt
    cases n with
    | zero => rfl
    | succ j =>
      have := (hn 0).1 (by omega)
      simp at this
      omega
  · intro fuel hfuel
    obtain ⟨n, hn, hrun⟩ := sweep_loop_sizes ndpus timer which reps (2 ^ 26) 2 (Nat.le_refl _)
      (by decide) (2 ^ 26 + 1 - 64) 64 0 (by decide) (Nat.le_refl _)
    have h20 : 20 < n := (hn 20).2 (by decide)
    have h21 : ¬ 21 < n := fun h => absurd ((hn 21).1 h) (by decide)
    have hn21 : n = 21 := by omega
    subst hn21
    have h := hrun fuel hfuel
    unfold main
    cases hs : sweep_loop ndpus timer which reps (2 ^ 26) 2 fuel 0 64 with
    | none => rw [hs] at h; simp at h
    | some steps =>
      rw [hs] at h
      simp only [Option.map_some', Option.some.injEq] at h
      have hl := congrArg List.length h
      simp only [List.length_map, List.length_range] at hl
      simp [hl]

/-- Witness of C10 at `min = 64`, `max = 1000`, `factor = 4`: the sizes 64 and
256 are visited. -/
theorem sweep_sizes_witness :
    (∃ n, (∀ k, k < n ↔ 64 * 4 ^ k ≤ 1000) ∧
      (∀ fuel, n < fuel →
        (main fuel 1 (fun _ _ _ _ => (0, 1)) 64 1000 4 1 3).map (List.map Prod.fst) =
          some ((List.range n).map (fun k => 64 * 4 ^ k))) ∧
      List.Pairwise (fun a b => a < b) ((List.range n).map (fun k => 64 * 4 ^ k)) ∧
      (1000 < 64 → n = 0)) ∧
    (∀ fuel, 21 < fuel →
      (main fuel 1 (fun _ _ _ _ => (0, 1)) 64 (2 ^ 26) 2 1 3).map List.length = some 21) :=
  sweep_sizes 1 (fun _ _ _ _ => (0, 1)) 3 1 64 1000 4 (by decide) (by decide) (by decide)

end Host

namespace Host

/-- The test `which == 0xFFFFFFFFu || (which & bit)` of `main` holds exactly
when the bit of the mask is set. -/
theorem enabled_iff (which i : Nat) (hi : i < 32) :
    (which = 0xFFFFFFFF ∨ which &&& 2 ^ i ≠ 0) ↔ which.testBit i = true := by
  have hpos : 0 < 2 ^ i := Nat.pos_pow_of_pos i (by decide)
  constructor
  · intro h
    rcases h with h | h
    · subst h
      have : (0xFFFFFFFF : Nat) = 2 ^ 32 - 1 := by decide
      rw [this, Nat.testBit_two_pow_sub_one]
      simpa using hi
    · rw [Nat.and_two_pow] at h
      cases hb : which.testBit i with
      | true => rfl
      | false => rw [hb] at h; simp at h
  · intro h
    right
    rw [Nat.and_two_pow, h]
    simp only [Bool.toNat_true, Nat.one_mul]
    omega

/-- Filtering a list keeps or drops its head and filters the rest. -/
theorem filter_cons_append {α : Type} (p : α → Bool) (a : α) (l : List α) :
    (a :: l).filter p = (if p a = true then [a] else []) ++ l.filter p := by
  rw [List.filter_cons]
  split <;> rfl

/-- Mapping over a conditional singleton. -/
theorem map_ite_singleton {α β : Type} (f : α → β) (c : Prop) [Decidable c] (x : α) :
    (if c then [x] else []).map f = if c then [f x] else [] := by
  split <;> rfl

/-- Names of the rows one iteration writes: those of the enabled variants, in
the order of `main`. -/
theorem step_rows_names (ndpus : Nat) (timer : Nat → Nat → Nat → Nat × Nat) (which reps b : Nat) :
    (step_rows ndpus timer which reps b).map (fun r => r.name) =
      (variants.filter (fun v => which.testBit v.1)).map (fun v => v.2) := by
  have h0 : (which = 0xFFFFFFFF ∨ which &&& 0x1 ≠ 0) ↔ which.testBit 0 = true :=
    enabled_iff which 0 (by decide)
  have h1 : (which = 0xFFFFFFFF ∨ which &&& 0x2 ≠ 0) ↔ which.testBit 1 = true :=
    enabled_iff which 1 (by decide)
  have h2 : (which = 0xFFFFFFFF ∨ which &&& 0x4 ≠ 0) ↔ which.testBit 2 = true :=
    enabled_iff which 2 (by decide)
  have h3 : (which = 0xFFFFFFFF ∨ which &&& 0x8 ≠ 0) ↔ which.testBit 3 = true :=
    enabled_iff which 3 (by decide)
  have h4 : (which = 0xFFFFFFFF ∨ which &&& 0x10 ≠ 0) ↔ which.testBit 4 = true :=
    enabled_iff which 4 (by decide)
  have h5 : (which = 0xFFFFFFFF ∨ which &&& 0x20 ≠ 0) ↔ which.testBit 5 = true :=
    enabled_iff which 5 (by decide)
  have h6 : (which = 0xFFFFFFFF ∨ which &&& 0x40 ≠ 0) ↔ which.testBit 6 = true :=
    enabled_iff which 6 (by decide)
  have h7 : (which = 0xFFFFFFFF ∨ which &&& 0x80 ≠ 0) ↔ which.testBit 7 = true :=
    enabled_iff which 7 (by decide)
  have h8 : (which = 0xFFFFFFFF ∨ which &&& 0x100 ≠ 0) ↔ which.testBit 8 = true :=
    enabled_iff which 8 (by decide)
  unfold step_rows variants
  simp only [h0, h1, h2, h3, h4, h5, h6, h7, h8, filter_cons_append, List.filter_nil,
    List.map_append, map_ite_singleton, List.append_assoc, List.append_nil, List.map_nil]
  rfl

/-- The enabled variants are counted by the set bits among bits `0 .. 8`. -/
theorem enabled_variants_length (which : Nat) :
    ((variants.filter (fun v => which.testBit v.1)).map (fun v => v.2)).length =
      enabled_count which := by
  unfold enabled_count variants
  have hr : List.range 9 = [0, 1, 2, 3, 4, 5, 6, 7, 8] := by decide
  rw [hr, List.length_map]
  simp only [filter_cons_append, List.filter_nil, List.length_append, List.length_nil]
  cases which.testBit 0 <;> cases which.testBit 1 <;> cases which.testBit 2 <;>
    cases which.testBit 3 <;> cases which.testBit 4 <;> cases which.testBit 5 <;>
    cases which.testBit 6 <;> cases which.testBit 7 <;> cases which.testBit 8 <;> rfl

end Host

namespace Host

/-- Every iteration of the sweep loop writes the rows of `step_rows` for its
size. -/
theorem sweep_loop_steps (ndpus : Nat) (timer : Nat → Nat → Nat → Nat → Nat × Nat)
    (which reps max_bytes factor : Nat) :
    ∀ (fuel i b : Nat) (steps : List (Nat × List csv_row)),
      sweep_loop ndpus timer which reps max_bytes factor fuel i b = some steps →
      ∀ s ∈ steps, ∃ j, s.2 = step_rows ndpus (timer j) which reps s.1 := by
  intro fuel
  induction fuel with
  | zero =>
    intro i b steps h
    simp [sweep_loop] at h
  | succ f ih =>
    intro i b steps h s hs
    unfold sweep_loop at h
    split at h
    · cases hr : sweep_loop ndpus timer which reps max_bytes factor f (i + 1) (u64 (b * factor)) with
      | none => rw [hr] at h; simp at h
      | some rest =>
        rw [hr] at h
        simp only [Option.map_some', Option.some.injEq] at h
        subst h
        rcases List.mem_cons.1 hs with h1 | h1
        · subst h1
          exact ⟨i, rfl⟩
        · exact ih _ _ _ hr s h1
    · simp only [Option.some.injEq] at h
      subst h
      simp at hs

/-- Rows of a run in which every iteration writes `c` rows. -/
theorem csv_rows_length (steps : List (Nat × List csv_row)) (c : Nat)
    (h : ∀ s ∈ steps, s.2.length = c) : (csv_rows steps).length = steps.length * c := by
  unfold csv_rows
  induction steps with
  | nil => simp
  | cons s rest ih =>
    rw [List.flatMap_cons, List.length_append, ih (fun t ht => h t (List.mem_cons_of_mem _ ht)),
      h s (List.mem_cons_self _ _), List.length_cons]
    ring

/-- C7: for every terminating sweep of `main` with `k` size steps and every
mask `which`, the number of data rows written equals `k` times the number of
enabled variants, where variant `i` (`i` in `0 .. 8`) is enabled exactly when
bit `i` of `which` is set; every step writes exactly the rows of the enabled
variants, one each; and the default mask `0xFFFFFFFF` gives `9 k` rows. -/
theorem csv_row_count (fuel ndpus : Nat) (timer : Nat → Nat → Nat → Nat → Nat × Nat)
    (min_bytes max_bytes factor reps which : Nat) (steps : List (Nat × List csv_row))
    (h : main fuel ndpus timer min_bytes max_bytes factor reps which = some steps) :
    (csv_rows steps).length = steps.length * enabled_count which ∧
    (∀ s ∈ steps, s.2.map (fun r => r.name) =
      (variants.filter (fun v => which.testBit v.1)).map (fun v => v.2)) ∧
    (which = 0xFFFFFFFF → (csv_rows steps).length = steps.length * 9) := by
  have hsteps := sweep_loop_steps ndpus timer which reps max_bytes factor fuel 0 min_bytes steps h
  have hnames : ∀ s ∈ steps, s.2.map (fun r => r.name) =
      (variants.filter (fun v => which.testBit v.1)).map (fun v => v.2) := by
    intro s hs
    obtain ⟨j, hj⟩ := hsteps s hs
    rw [hj]
    exact step_rows_names _ _ _ _ _
  have hlen : ∀ s ∈ steps, s.2.length = enabled_count which := by
    intro s hs
    rw [← enabled_variants_length, ← hnames s hs, List.length_map]
  have hcount := csv_rows_length steps _ hlen
  refine ⟨hcount, hnames, ?_⟩
  intro hw
  rw [hcount, hw]
  rfl

/-- Witness of C7: the sweep `64, 128, 256` with mask `0x5` on one device. -/
theorem csv_row_count_witness :
    (csv_rows [(64, step_rows 1 (fun _ _ _ => (0, 1)) 5 1 64),
               (128, step_rows 1 (fun _ _ _ => (0, 1)) 5 1 128),
               (256, step_rows 1 (fun _ _ _ => (0, 1)) 5 1 256)]).length = 3 * enabled_count 5 :=
  (csv_row_count 4 1 (fun _ _ _ _ => (0, 1)) 64 256 2 1 5
    [(64, step_rows 1 (fun _ _ _ => (0, 1)) 5 1 64),
     (128, step_rows 1 (fun _ _ _ => (0, 1)) 5 1 128),
     (256, step_rows 1 (fun _ _ _ => (0, 1)) 5 1 256)] (by decide)).1

end Host

/-! ## Host driver: batched device-to-host transfer -/

namespace Host

/-- State of the preparing `DPU_FOREACH` after the first `n` devices of the
enumeration, for a window that starts at `p` with `s` buffers. -/
theorem prepare_fold (F p s : Nat) (hF : F < 2 ^ 32) (hps : p + s ≤ F) :
    ∀ n, n ≤ F →
      (List.range n).foldl (prepare_body p s) ⟨0, 0, []⟩ =
        ⟨min (n - p) s, n, (List.range (min (n - p) s)).map (fun j => (p + j, j))⟩ := by
  intro n
  induction n with
  | zero => intro _; simp
  | succ n ih =>
    intro hn
    rw [List.range_succ, List.foldl_append, ih (by omega)]
    simp only [List.foldl_cons, List.foldl_nil, prepare_body, u32]
    have hu : (p + s) % 2 ^ 32 = p + s := Nat.mod_eq_of_lt (by omega)
    have hn1 : (n + 1) % 2 ^ 32 = n + 1 := Nat.mod_eq_of_lt (by omega)
    rw [hu]
    by_cases hc : min (n - p) s < s ∧ n ≥ p ∧ n < p + s
    · rw [if_pos hc]
      obtain ⟨h1, h2, h3⟩ := hc
      have hk : min (n - p) s = n - p := by omega
      have hk1 : min (n + 1 - p) s = n - p + 1 := by omega
      have hm : (n - p + 1) % 2 ^ 32 = n - p + 1 := Nat.mod_eq_of_lt (by omega)
      simp only [hk, hk1, hm, hn1, List.range_succ, List.map_append, List.map_cons,
        List.map_nil]
      have : p + (n - p) = n := by omega
      rw [this]
    · rw [if_neg hc]
      have hk : min (n + 1 - p) s = min (n - p) s := by omega
      simp only [hk, hn1]

/-- The preparing `DPU_FOREACH` of a window that starts at `p` with `s` buffers
prepares buffer `j` for the device at position `p + j`. -/
theorem prepare_calls (F p s : Nat) (hF : F < 2 ^ 32) (hps : p + s ≤ F) :
    ((List.range F).foldl (prepare_body p s) ⟨0, 0, []⟩).calls =
      (List.range s).map (fun j => (p + j, j)) := by
  rw [prepare_fold F p s hF hps F (Nat.le_refl _)]
  have : min (F - p) s = s := by omega
  simp only [this]

/-- The window loop from window number `w` runs the remaining windows in the
intended layout. -/
theorem window_loop_layout (F : Nat) (hF : F < 2 ^ 32) :
    ∀ (fuel w : Nat), (F + 63) / 64 - w < fuel →
      window_loop F F fuel (min (64 * w) F) 0 =
        some ((List.range' w ((F + 63) / 64 - w)).map (window_layout F)) := by
  intro fuel
  induction fuel with
  | zero => intro w h; omega
  | succ f ih =>
    intro w hfuel
    unfold window_loop
    by_cases hlt : min (64 * w) F < F
    · rw [if_pos hlt]
      have hp : min (64 * w) F = 64 * w := by omega
      have hsz : (if F - min (64 * w) F < BATCH then F - min (64 * w) F else BATCH) =
          min 64 (F - 64 * w) := by
        rw [hp]; unfold BATCH; split <;> omega
      have hnext : u32 (min (64 * w) F + min 64 (F - 64 * w)) = min (64 * (w + 1)) F := by
        unfold u32
        rw [Nat.mod_eq_of_lt (by omega)]
        omega
      simp only [hsz, hnext]
      rw [ih (w + 1) (by omega)]
      have hcount : (F + 63) / 64 - w = ((F + 63) / 64 - (w + 1)) + 1 := by omega
      rw [hcount, List.range'_succ, List.map_cons, hp,
        prepare_calls F (64 * w) (min 64 (F - 64 * w)) hF (by omega)]
      rfl
    · rw [if_neg hlt]
      have : (F + 63) / 64 - w = 0 := by omega
      rw [this]
      rfl

/-- The devices prepared by the windows `w, w + 1, ...` of the layout are the
enumeration positions from `64 w` on, each once and in order. -/
theorem layout_devices (F : Nat) : ∀ (m w : Nat), m = (F + 63) / 64 - w → w ≤ (F + 63) / 64 →
    (((List.range' w m).map (window_layout F)).flatMap (fun win => win.calls)).map Prod.fst =
      List.range' (64 * w) (F - 64 * w) := by
  intro m
  induction m with
  | zero =>
    intro w hm hw
    have : F - 64 * w = 0 := by omega
    rw [this]
    rfl
  | succ m ih =>
    intro w hm hw
    rw [List.range'_succ, List.map_cons, List.flatMap_cons, List.map_append,
      ih (w + 1) (by omega) (by omega)]
    have hhead : (window_layout F w).calls.map Prod.fst =
        List.range' (64 * w) (min 64 (F - 64 * w)) := by
      unfold window_layout
      simp only [List.map_map]
      rw [List.range'_eq_map_range]
      apply List.map_congr_left
      intro j _
      rfl
    rw [hhead]
    by_cases hfull : 64 ≤ F - 64 * w
    · have h1 : min 64 (F - 64 * w) = 64 := by omega
      have h2 : 64 * (w + 1) = 64 * w + 1 * 64 := by omega
      have h3 : F - 64 * w = (F - (64 * w + 1 * 64)) + 64 := by omega
      rw [h1, h2, h3]
      rw [List.range'_append]
    · have h1 : min 64 (F - 64 * w) = F - 64 * w := by omega
      have h2 : F - 64 * (w + 1) = 0 := by omega
      rw [h1, h2]
      simp

end Host

namespace Host

/-- C3: for every fleet size `F` (below `2 ^ 32`) one repetition of
`run_prepare_push_d2h` terminates and runs exactly `ceil(F / 64)` windows;
window `w` allocates `min(64, F - 64 w)` buffers; the devices prepared over the
whole repetition are the enumeration positions `0 .. F - 1`, each exactly once
and in order; the device at position `i` is prepared in window `floor(i / 64)`
with pool buffer `i mod 64`; and for `F = 100` the windows have 64 and 36
buffers. -/
theorem d2h_windows (F : Nat) (hF : F < 2 ^ 32) :
    ∃ ws : List window,
      (∀ fuel, (F + 63) / 64 < fuel → run_prepare_push_d2h_rep fuel F = some ws) ∧
      ws.length = (F + 63) / 64 ∧
      (∀ w, w < (F + 63) / 64 → ws[w]?.map (fun win => win.pool_sz) = some (min 64 (F - 64 * w))) ∧
      (ws.flatMap (fun win => win.calls)).map Prod.fst = List.range F ∧
      (∀ i, i < F → ((ws.flatMap (fun win => win.calls)).map Prod.fst).count i = 1) ∧
      (∀ i, i < F → ∃ win, ws[i / 64]? = some win ∧ (i, i % 64) ∈ win.calls) ∧
      (F = 100 → ws.map (fun win => win.pool_sz) = [64, 36]) := by
  refine ⟨(List.range ((F + 63) / 64)).map (window_layout F), ?_, ?_, ?_, ?_, ?_, ?_, ?_⟩
  · intro fuel hfuel
    have h := window_loop_layout F hF fuel 0 (by omega)
    unfold run_prepare_push_d2h_rep count_dpus u32
    rw [Nat.mod_eq_of_lt hF]
    simpa [List.range_eq_range'] using h
  · simp
  · intro w hw
    rw [List.getElem?_map, List.getElem?_range hw]
    rfl
  · have h := layout_devices F ((F + 63) / 64) 0 (by omega) (by omega)
    simpa [List.range_eq_range'] using h
  · intro i hi
    have h := layout_devices F ((F + 63) / 64) 0 (by omega) (by omega)
    have h' : (((List.range ((F + 63) / 64)).map (window_layout F)).flatMap
        (fun win => win.calls)).map Prod.fst = List.range F := by
      simpa [List.range_eq_range'] using h
    rw [h']
    exact List.count_eq_one_of_mem (List.nodup_range F) (List.mem_range.2 hi)
  · intro i hi
    refine ⟨window_layout F (i / 64), ?_, ?_⟩
    · rw [List.getElem?_map, List.getElem?_range (by omega)]
      rfl
    · unfold window_layout
      simp only [List.mem_map, List.mem_range, Prod.mk.injEq]
      exact ⟨i % 64, by omega, by omega, rfl⟩
  · intro h100
    subst h100
    decide

/-- Witness of C3 for a fleet of 100 devices. -/
theorem d2h_windows_witness :
    ∃ ws : List window,
      (∀ fuel, (100 + 63) / 64 < fuel → run_prepare_push_d2h_rep fuel 100 = some ws) ∧
      ws.length = (100 + 63) / 64 ∧
      (∀ w, w < (100 + 63) / 64 →
        ws[w]?.map (fun win => win.pool_sz) = some (min 64 (100 - 64 * w))) ∧
      (ws.flatMap (fun win => win.calls)).map Prod.fst = List.range 100 ∧
      (∀ i, i < 100 → ((ws.flatMap (fun win => win.calls)).map Prod.fst).count i = 1) ∧
      (∀ i, i < 100 → ∃ win, ws[i / 64]? = some win ∧ (i, i % 64) ∈ win.calls) ∧
      (100 = 100 → ws.map (fun win => win.pool_sz) = [64, 36]) :=
  d2h_windows 100 (by decide)

end Host
